import Mathlib

/-!
Verification of `godoc/parser.go` (build-tag → identifier mapping).

The Go source is shallowly embedded: byte buffers become `List Char`
(all relevant markers are ASCII), Go maps become association lists
together with an explicit iteration order wherever the source `range`s
over a map (Go's map iteration order is unspecified), external
capabilities (the virtual filesystem and `go/parser`) become function
parameters bundled in `Corpus`, and fallible operations return
`Except String`.
-/

set_option maxHeartbeats 1000000

namespace Godoc

/-! ## Association lists: the embedding of Go maps.

`alookup` is map indexing, `aset` is map assignment (overwrite in place,
append when the key is absent, so the list order records first-insertion
order). -/

def alookup {α : Type} : List (String × α) → String → Option α
  | [], _ => none
  | (k, v) :: rest, key => if k = key then some v else alookup rest key

def aset {α : Type} : List (String × α) → String → α → List (String × α)
  | [], key, v => [(key, v)]
  | (k, w) :: rest, key, v =>
    if k = key then (k, v) :: rest else (k, w) :: aset rest key v

theorem alookup_aset {α : Type} (m : List (String × α)) (k : String) (v : α) (key : String) :
    alookup (aset m k v) key = if key = k then some v else alookup m key := by
  induction m with
  | nil =>
    by_cases h : key = k
    · subst h; simp [aset, alookup]
    · have h' : ¬ k = key := fun hh => h hh.symm
      simp [aset, alookup, h, h']
  | cons p rest ih =>
    obtain ⟨pk, pv⟩ := p
    by_cases h1 : pk = k
    · subst h1
      by_cases h2 : pk = key
      · subst h2; simp [aset, alookup]
      · have h2' : ¬ key = pk := fun hh => h2 hh.symm
        simp [aset, alookup, h2, h2']
    · by_cases h2 : pk = key
      · subst h2
        simp [aset, alookup, h1]
      · simp [aset, alookup, h1, h2, ih]

theorem aset_self {α : Type} (m : List (String × α)) (k : String) (v : α)
    (h : alookup m k = some v) : aset m k v = m := by
  induction m with
  | nil => simp [alookup] at h
  | cons p rest ih =>
    obtain ⟨pk, pv⟩ := p
    by_cases h1 : pk = k
    · subst h1
      simp [alookup] at h
      subst h
      simp [aset]
    · simp only [alookup, if_neg h1] at h
      simp [aset, h1, ih h]

/-! ## Character-buffer utilities (models of `bytes` / `strings` stdlib calls). -/

/-- Model of `bytes.Index`: position of the first occurrence of `pat` in `s`. -/
def indexOfSub (s pat : List Char) : Option Nat :=
  if pat.isPrefixOf s then some 0
  else
    match s with
    | [] => none
    | _ :: rest => (indexOfSub rest pat).map (· + 1)

theorem indexOfSub_some (s pat : List Char) (i : Nat) (h : indexOfSub s pat = some i) :
    pat.isPrefixOf (s.drop i) = true ∧ i + pat.length ≤ s.length := by
  induction s generalizing i with
  | nil =>
    rw [indexOfSub] at h
    by_cases hp : pat.isPrefixOf ([] : List Char) = true
    · rw [if_pos hp] at h
      cases h
      refine ⟨by simpa using hp, ?_⟩
      have hpat : pat = [] := by
        cases pat with
        | nil => rfl
        | cons c cs => simp [List.isPrefixOf] at hp
      simp [hpat]
    · rw [if_neg (by simpa using hp)] at h
      exact Option.noConfusion h
  | cons c rest ih =>
    rw [indexOfSub] at h
    by_cases hp : pat.isPrefixOf (c :: rest) = true
    · rw [if_pos hp] at h
      cases h
      refine ⟨by simpa using hp, ?_⟩
      have := List.IsPrefix.length_le (List.isPrefixOf_iff_prefix.mp hp)
      simpa using this
    · rw [if_neg (by simpa using hp)] at h
      cases hi : indexOfSub rest pat with
      | none => rw [hi] at h; exact Option.noConfusion h
      | some j =>
        rw [hi] at h
        simp only [Option.map_some'] at h
        cases h
        obtain ⟨h1, h2⟩ := ih j hi
        refine ⟨by simpa using h1, ?_⟩
        simp only [List.length_cons]
        omega

/-- Model of `strings.Contains`. -/
def containsSub (s pat : String) : Bool :=
  (indexOfSub s.toList pat.toList).isSome

/-! ## SourceSanitizer: `replaceLinePrefixCommentsWithBlankLine`. -/

/-- The marker byte sequence `linePrefix` of parser.go, here named
`lineMarker`. -/
def lineMarker : List Char := ['/', '/', 'l', 'i', 'n', 'e', ' ']

/-- Length of the run the blanking loop covers: bytes before the next newline. -/
def countToNewline : List Char → Nat
  | [] => 0
  | c :: rest => if c = '\n' then 0 else countToNewline rest + 1

theorem countToNewline_pos (l : List Char) (h : lineMarker.isPrefixOf l = true) :
    1 ≤ countToNewline l := by
  obtain ⟨t, ht⟩ := List.isPrefixOf_iff_prefix.mp h
  subst ht
  simp [lineMarker, countToNewline]

/-- The scanning loop of `replaceLinePrefixCommentsWithBlankLine`.  The Go
original mutates `src` in place and then re-slices (`src = src[i:]`); here the
prefix already scanned is emitted and the loop recurses on the remaining
suffix — the same computation on an immutable value.  Note the faithfully kept
quirk: `i == 0` tests the start of the current *slice*, not of the buffer. -/
def sanitizeLoop (src : List Char) : List Char :=
  match h : indexOfSub src lineMarker with
  | none => src
  | some i =>
    if i = 0 ∨ src.get? (i - 1) = some '\n' then
      src.take i ++ (List.replicate (countToNewline (src.drop i)) ' ' ++
        sanitizeLoop ((src.drop i).drop (countToNewline (src.drop i))))
    else
      src.take (i + lineMarker.length) ++ sanitizeLoop (src.drop (i + lineMarker.length))
termination_by src.length
decreasing_by
  · have hb := indexOfSub_some src lineMarker i h
    have hn := countToNewline_pos (src.drop i) hb.1
    have h7 : i + 7 ≤ src.length := by
      simpa [lineMarker] using hb.2
    simp only [List.length_drop]
    omega
  · have hb := indexOfSub_some src lineMarker i h
    have h7 : i + 7 ≤ src.length := by
      simpa [lineMarker] using hb.2
    simp only [List.length_drop, lineMarker, List.length_cons, List.length_nil]
    omega

/-- Model of `replaceLinePrefixCommentsWithBlankLine` (parser.go).  The Go
function mutates its argument; the model returns the resulting buffer. -/
def replaceLinePrefixCommentsWithBlankLine (src : List Char) : List Char :=
  sanitizeLoop src

/-! Unfolding lemmas for the three branches of the scanning loop (the loop is a
well-founded recursion, so concrete runs are evaluated by rewriting). -/

theorem sanitizeLoop_none (src : List Char) (h : indexOfSub src lineMarker = none) :
    sanitizeLoop src = src := by
  rw [sanitizeLoop]
  split
  · rfl
  · rename_i i hi
    rw [h] at hi
    exact Option.noConfusion hi

theorem sanitizeLoop_blank (src : List Char) (i : Nat)
    (h : indexOfSub src lineMarker = some i)
    (hc : i = 0 ∨ src.get? (i - 1) = some '\n') :
    sanitizeLoop src = src.take i ++ (List.replicate (countToNewline (src.drop i)) ' ' ++
      sanitizeLoop ((src.drop i).drop (countToNewline (src.drop i)))) := by
  rw [sanitizeLoop]
  split
  · rename_i hi; rw [h] at hi; exact Option.noConfusion hi
  · rename_i j hj
    rw [h] at hj
    cases hj
    rw [if_pos hc]

theorem sanitizeLoop_skip (src : List Char) (i : Nat)
    (h : indexOfSub src lineMarker = some i)
    (hc : ¬ (i = 0 ∨ src.get? (i - 1) = some '\n')) :
    sanitizeLoop src = src.take (i + lineMarker.length) ++
      sanitizeLoop (src.drop (i + lineMarker.length)) := by
  rw [sanitizeLoop]
  split
  · rename_i hi; rw [h] at hi; exact Option.noConfusion hi
  · rename_i j hj
    rw [h] at hj
    cases hj
    rw [if_neg hc]

/-- Buffer split at newlines (the `'\n'` separators belong to no line). -/
def splitLines : List Char → List (List Char)
  | [] => [[]]
  | c :: rest =>
    if c = '\n' then [] :: splitLines rest
    else
      match splitLines rest with
      | [] => [[c]]
      | l :: ls => (c :: l) :: ls

/-- The sanitizer as the specification words it: every line that begins — at a
true line start — with the marker is blanked to spaces up to its terminator;
all other bytes are untouched.  Stated from the spec, to compare with the
source translation above. -/
def blankMarkedLinesSpec (src : List Char) : List Char :=
  List.intercalate ['\n']
    ((splitLines src).map fun l =>
      if lineMarker.isPrefixOf l then List.replicate l.length ' ' else l)

example : replaceLinePrefixCommentsWithBlankLine "//line a\nx".toList = "        \nx".toList := by
  rw [replaceLinePrefixCommentsWithBlankLine, sanitizeLoop_blank _ 0 (by decide) (by decide),
    sanitizeLoop_none _ (by decide)]
  decide

example : blankMarkedLinesSpec "//line a\nx".toList = "        \nx".toList := by
  decide

/-! ## The syntax-tree model (`go/ast` values, as far as parser.go inspects them). -/

/-- A receiver type expression.  parser.go never looks inside the expression:
it only hands it to the external `go/format.Node`, which renders it to text or
fails; that external outcome is the only datum the model needs. -/
structure ExprR where
  render : Option String
deriving DecidableEq

/-- One field of a receiver list (`ast.Field`, restricted to its `Type`). -/
structure RecvField where
  type : ExprR
deriving DecidableEq

/-- `ast.FieldList`, restricted to its `List`. -/
structure FieldList where
  list : List RecvField
deriving DecidableEq

/-- `ast.Spec` as the declaration walk distinguishes it. -/
inductive GoSpec where
  | typeSpec (name : String)
  | valueSpec (names : List String)
  | otherSpec
deriving DecidableEq

/-- `ast.Decl` as the declaration walk distinguishes it: a function declaration
(with optional receiver), a `GenDecl` with its spec list, anything else. -/
inductive GoDecl where
  | funcDecl (name : String) (recv : Option FieldList)
  | genDecl (specs : List GoSpec)
  | otherDecl
deriving DecidableEq

/-- `ast.File`, restricted to what parser.go reads: the comment groups (each a
list of single comments' `Text`) and the top-level declarations. -/
structure AstFile where
  comments : List (List String)
  decls : List GoDecl
deriving DecidableEq

/-! ## TagExtractor: `findBuildTags`. -/

/-- Whitespace splitter on character lists, one pass with the token being
accumulated (reversed) in `cur`; every emitted token is non-empty. -/
def wsSplitAux : List Char → List Char → List (List Char)
  | [], cur => if cur = [] then [] else [cur.reverse]
  | c :: rest, cur =>
    if c.isWhitespace then
      if cur = [] then wsSplitAux rest []
      else cur.reverse :: wsSplitAux rest []
    else wsSplitAux rest (c :: cur)

def wsSplit (l : List Char) : List (List Char) :=
  wsSplitAux l []

/-- Modelled from the spec: `buildutil.TagsFlag.Set` (package
`golang.org/x/tools/go/buildutil`, not under src/) parses the directive line
into space-separated raw tokens — "Parse the directive's trailing text into
space-separated raw tokens". -/
def tagsFlagSet (s : String) : List String :=
  (wsSplit s.toList).map fun l => String.mk l

theorem wsSplitAux_ne_nil (l : List Char) :
    ∀ cur, ∀ tok ∈ wsSplitAux l cur, tok ≠ [] := by
  induction l with
  | nil =>
    intro cur tok h
    rw [wsSplitAux] at h
    by_cases hc : cur = []
    · rw [if_pos hc] at h
      simp at h
    · rw [if_neg hc] at h
      rcases List.mem_singleton.mp h with rfl
      simpa using hc
  | cons c rest ih =>
    intro cur tok h
    rw [wsSplitAux] at h
    by_cases hw : c.isWhitespace
    · rw [if_pos hw] at h
      by_cases hc : cur = []
      · rw [if_pos hc] at h
        exact ih [] tok h
      · rw [if_neg hc] at h
        rcases List.mem_cons.mp h with h1 | h1
        · rw [h1]
          simpa using hc
        · exact ih [] tok h1
    · rw [if_neg hw] at h
      exact ih (c :: cur) tok h

theorem wsSplit_ne_nil (l : List Char) : ∀ tok ∈ wsSplit l, tok ≠ [] :=
  wsSplitAux_ne_nil l []

theorem tagsFlagSet_ne_empty (s t : String) (h : t ∈ tagsFlagSet s) : t ≠ "" := by
  rw [tagsFlagSet, List.mem_map] at h
  obtain ⟨tok, htok, rfl⟩ := h
  have hne := wsSplit_ne_nil _ _ htok

  intro hc
  apply hne
  have : (String.mk tok).data = ("" : String).data := by rw [hc]
  simpa using this

/-- `findBuildTags` (parser.go): scan every comment of the file; a comment
containing `+build` is tokenized with `TagsFlag.Set` (its error discarded) and
each token equal to an allowed build tag is appended — once per equal entry of
`allowedBuildTags`, with no deduplication.  The nested appending loops are
rendered as `flatMap`/`filterMap` over the same ranges. -/
def findBuildTags (file : AstFile) (allowedBuildTags : List String) :
    List String × Bool :=
  let tags := file.comments.flatMap fun c =>
    c.flatMap fun l =>
      if containsSub l "+build" then
        (tagsFlagSet l).flatMap fun t =>
          allowedBuildTags.filterMap fun abt => if t = abt then some t else none
      else []
  (tags, decide (tags.length > 0))

theorem findBuildTags_mem (file : AstFile) (allowed : List String) (t : String) :
    t ∈ (findBuildTags file allowed).1 ↔
      (t ∈ allowed ∧ ∃ c ∈ file.comments, ∃ l ∈ c,
        containsSub l "+build" = true ∧ t ∈ tagsFlagSet l) := by
  simp only [findBuildTags, List.mem_flatMap]
  constructor
  · rintro ⟨c, hc, l, hl, hin⟩
    by_cases hb : containsSub l "+build" = true
    · rw [if_pos hb] at hin
      simp only [List.mem_flatMap, List.mem_filterMap] at hin
      obtain ⟨tok, htok, abt, habt, heq⟩ := hin
      by_cases he : tok = abt
      · rw [if_pos he] at heq
        cases heq
        exact ⟨he ▸ habt, c, hc, l, hl, hb, htok⟩
      · rw [if_neg he] at heq
        exact Option.noConfusion heq
    · rw [if_neg hb] at hin
      simp at hin
  · rintro ⟨hmem, c, hc, l, hl, hb, htok⟩
    refine ⟨c, hc, l, hl, ?_⟩
    rw [if_pos hb]
    simp only [List.mem_flatMap, List.mem_filterMap]
    exact ⟨t, htok, t, hmem, by simp⟩

theorem findBuildTags_snd (file : AstFile) (allowed : List String) :
    (findBuildTags file allowed).2 = true ↔ (findBuildTags file allowed).1 ≠ [] := by
  simp only [findBuildTags]
  constructor
  · intro h
    have := of_decide_eq_true h
    intro hc
    rw [hc] at this
    simp at this
  · intro h
    apply decide_eq_true
    have : 0 < (List.flatMap _ _).length := List.length_pos.mpr h
    exact this

theorem findBuildTags_ne_empty (file : AstFile) (allowed : List String) (t : String)
    (h : t ∈ (findBuildTags file allowed).1) : t ∈ allowed ∧ t ≠ "" := by
  rw [findBuildTags_mem] at h
  obtain ⟨hmem, c, hc, l, hl, hb, htok⟩ := h
  exact ⟨hmem, tagsFlagSet_ne_empty l t htok⟩

/-! ## FileLoader: `parseFile` / `parseFiles`, with the two external
capabilities (the vfs and `go/parser`) as function parameters. -/

/-- Model of `path.Join` on two elements (Go standard library, external to the
repository): the elements joined by a slash.  (`path.Clean`'s dot-segment
rewriting is irrelevant to every claim and is not modelled.) -/
def pathJoin (a b : String) : String :=
  if a = "" then b else a ++ "/" ++ b

/-- Model of `filepath.Base` (Go standard library, external to the repository),
for slash-separated paths: last element after stripping trailing slashes; `"."`
for the empty path; `"/"` for all-slash paths. -/
def filepathBase (p : String) : String :=
  if p = "" then "."
  else if List.rdropWhile (fun c => c = '/') p.toList = [] then "/"
  else String.mk (List.rtakeWhile (fun c => ¬ c = '/')
    (List.rdropWhile (fun c => c = '/') p.toList))

theorem string_data_append (a b : String) : (a ++ b).data = a.data ++ b.data := by
  cases a
  cases b
  rfl

theorem pathJoin_right_inj (a b₁ b₂ : String) (h : pathJoin a b₁ = pathJoin a b₂) :
    b₁ = b₂ := by
  rw [pathJoin, pathJoin] at h
  by_cases ha : a = ""
  · rwa [if_pos ha, if_pos ha] at h
  · rw [if_neg ha, if_neg ha] at h
    have hd : (a ++ "/" ++ b₁).data = (a ++ "/" ++ b₂).data := by rw [h]
    rw [string_data_append, string_data_append] at hd
    have := List.append_cancel_left hd
    cases b₁
    cases b₂
    exact congrArg String.mk this

theorem filepathBase_shape (p : String) :
    filepathBase p = "." ∨ filepathBase p = "/" ∨
      ((filepathBase p).data ≠ [] ∧ ∀ c ∈ (filepathBase p).data, ¬ c = '/') := by
  rw [filepathBase]
  by_cases hp : p = ""
  · rw [if_pos hp]
    left
    rfl
  · rw [if_neg hp]
    by_cases hq : List.rdropWhile (fun c => c = '/') p.toList = []
    · rw [if_pos hq]
      right
      left
      rfl
    · rw [if_neg hq]
      right
      right
      refine ⟨?_, ?_⟩
      · intro hc
        have hr : List.rtakeWhile (fun c => ¬ c = '/')
            (List.rdropWhile (fun c => c = '/') p.toList) = [] := hc
        rw [List.rtakeWhile_eq_nil_iff] at hr
        have hlast := List.rdropWhile_last_not (fun c => c = '/') p.toList hq
        have := hr hq
        simp at this hlast
        exact hlast this
      · intro c hc
        have := List.mem_rtakeWhile_imp hc
        simpa using this

theorem filepathBase_noslash (r : String) (hne : r.data ≠ [])
    (hns : ∀ c ∈ r.data, ¬ c = '/') : filepathBase r = r := by
  have hne' : r ≠ "" := by
    intro hc
    apply hne
    rw [hc]
  rw [filepathBase, if_neg hne']
  have hq : List.rdropWhile (fun c => c = '/') r.toList = r.toList := by
    rw [List.rdropWhile_eq_self_iff]
    intro hl
    simpa using hns _ (List.getLast_mem hl)
  simp only [hq]
  have htl : r.toList = r.data := rfl
  rw [htl, if_neg hne]
  have hr : List.rtakeWhile (fun c => ¬ c = '/') r.data = r.data := by
    rw [List.rtakeWhile_eq_self_iff]
    intro x hx
    simpa using hns x hx
  rw [hr]

theorem filepathBase_idem (p : String) :
    filepathBase (filepathBase p) = filepathBase p := by
  rcases filepathBase_shape p with h | h | h
  · rw [h]
    decide
  · rw [h]
    decide
  · exact filepathBase_noslash _ h.1 h.2

instance {ε α : Type} [DecidableEq ε] [DecidableEq α] : DecidableEq (Except ε α) :=
  fun a b =>
    match a, b with
    | .error e, .error f =>
      if h : e = f then isTrue (by rw [h]) else
        isFalse (fun hc => by cases hc; exact h rfl)
    | .error _, .ok _ => isFalse (fun hc => by cases hc)
    | .ok _, .error _ => isFalse (fun hc => by cases hc)
    | .ok x, .ok y =>
      if h : x = y then isTrue (by rw [h]) else
        isFalse (fun hc => by cases hc; exact h rfl)

/-- The `Corpus`, restricted to what parser.go consumes of it: the two external
capabilities.  `fs` models `vfs.ReadFile` over `c.fs` (a byte read that can
fail), `goparse` models `go/parser.ParseFile` in `parser.ParseComments` mode
(file name and source bytes to syntax tree, or a syntax error).  Errors are
carried as their message strings. -/
structure Corpus where
  fs : String → Except String (List Char)
  goparse : String → List Char → Except String AstFile

/-- `Corpus.parseFile` (parser.go): read, sanitize, parse.  The `fset` and the
constant `parser.ParseComments` mode are position bookkeeping absorbed by the
external capabilities and are not separate model state. -/
def Corpus.parseFile (c : Corpus) (filename : String) : Except String AstFile := do
  let src ← c.fs filename
  let src := replaceLinePrefixCommentsWithBlankLine src
  c.goparse filename src

/-- The loop of `Corpus.parseFiles`, with the map built so far as accumulator. -/
def parseFilesLoop (c : Corpus) (relpath abspath : String)
    (files : List (String × AstFile)) :
    List String → Except String (List (String × AstFile))
  | [] => .ok files
  | f :: rest =>
    match c.parseFile (pathJoin abspath f) with
    | .error e => .error e
    | .ok file => parseFilesLoop c relpath abspath (aset files (pathJoin relpath f) file) rest

/-- `Corpus.parseFiles` (parser.go): load every local name joined onto
`abspath`, keyed by the name joined onto `relpath`; abort on the first
failure. -/
def Corpus.parseFiles (c : Corpus) (relpath abspath : String) (localnames : List String) :
    Except String (List (String × AstFile)) :=
  parseFilesLoop c relpath abspath [] localnames

/-! ## IdentifierTagMapper: `mapIdentifierToBuildTag`. -/

/-- The key built by `appendName`'s `strings.Builder`: `receiverType` and a dot
when `receiverType` is non-empty, then `typeName`. -/
def mkDeclKey (typeName receiverType : String) : String :=
  if receiverType ≠ "" then receiverType ++ "." ++ typeName else typeName

/-- `appendName`'s update of one map value: the zero value `""` means absent,
otherwise the new tag is concatenated after `", "` — plain concatenation, with
no membership test. -/
def joinStep (v : Option String) (tagName : String) : String :=
  let tns := v.getD ""
  if tns = "" then tagName else tns ++ ", " ++ tagName

/-- The `typesWithTags` update of the `appendName` closure, for a built key. -/
def appendTagForKey (m : List (String × String)) (key tagName : String) :
    List (String × String) :=
  aset m key (joinStep (alookup m key) tagName)

/-- The `appendName` closure of `mapIdentifierToBuildTag`. -/
def appendName (m : List (String × String)) (typeName receiverType tagName : String) :
    List (String × String) :=
  appendTagForKey m (mkDeclKey typeName receiverType) tagName

/-- `getReceiverType`, with the partial array access made explicit: `none` is
Go's out-of-range panic on `decl.Recv.List[0]` (reachable only for a non-nil
receiver with an empty field list, which a successfully parsed file never
produces); `some ""` is the no-receiver case and the `format.Node` error
fallback. -/
def getReceiverTypeCore (recv : Option FieldList) : Option String :=
  match recv with
  | none => some ""
  | some fl =>
    match fl.list with
    | [] => none
    | fld :: _ =>
      match fld.type.render with
      | none => some ""
      | some s => some s

/-- Total wrapper used by the declaration walk; on the panic case (excluded by
the parse precondition, see `getReceiverTypeCore`) it defaults to `""`. -/
def getReceiverType (recv : Option FieldList) : String :=
  (getReceiverTypeCore recv).getD ""

/-- One `ast.Spec` of the declaration walk's `GenDecl` case. -/
def walkSpec (m : List (String × String)) (tagName : String) :
    GoSpec → List (String × String)
  | .typeSpec name => appendName m name "" tagName
  | .valueSpec names => names.foldl (fun m id => appendName m id "" tagName) m
  | .otherSpec => m

/-- One `ast.Decl` of the declaration walk (the `switch decl := decl.(type)`). -/
def walkDecl (m : List (String × String)) (tagName : String) :
    GoDecl → List (String × String)
  | .funcDecl name recv => appendName m name (getReceiverType recv) tagName
  | .genDecl specs => specs.foldl (fun m sp => walkSpec m tagName sp) m
  | .otherDecl => m

/-- The walk over every declaration of every tree in one tag's batch. -/
def walkFile (m : List (String × String)) (tagName : String) (f : AstFile) :
    List (String × String) :=
  f.decls.foldl (fun m d => walkDecl m tagName d) m

/-- Inner loop body of step 1: `f := tagToFiles[bt]; f = append(f,
filepath.Base(fName)); tagToFiles[bt] = f`. -/
def addFileToTag (base : String) (ttf : List (String × List String)) (bt : String) :
    List (String × List String) :=
  aset ttf bt ((alookup ttf bt).getD [] ++ [base])

/-- Outer loop body of step 1: classify one `(fileName, tree)` pair. -/
def classifyFile (allowed : List String) (ttf : List (String × List String))
    (p : String × AstFile) : List (String × List String) :=
  if (findBuildTags p.2 allowed).2 then
    (findBuildTags p.2 allowed).1.foldl (addFileToTag (filepathBase p.1)) ttf
  else ttf

/-- The `tagToFiles` construction (step 1 of `mapIdentifierToBuildTag`): for
every file whose directives mention allowed tags, append the file's base name
to each mentioned tag's list.  `files` is the Go map `files` together with the
iteration order its `range` yields. -/
def buildTagToFiles (files : List (String × AstFile)) (allowed : List String) :
    List (String × List String) :=
  files.foldl (classifyFile allowed) []

/-- Model of the `fmt.Errorf("%s in %q with files: %v", ...)` wrap: `%q` is the
path in quotes, `%v` of a string slice is the bracketed space-joined list. -/
def wrapParseErr (err abspath : String) (fileNames : List String) : String :=
  err ++ " in \"" ++ abspath ++ "\" with files: [" ++
    String.intercalate " " fileNames ++ "]"

/-- The per-tag loop (steps 3–4 of `mapIdentifierToBuildTag`).  `tagSeq` is the
order in which Go's `range tagToFiles` yields the tags: unspecified by Go, so
it is explicit input here; in any actual execution it is a permutation of
`ttf`'s keys (a tag outside `ttf` looks up to the empty file list and
contributes nothing). -/
def mapTagsLoop (c : Corpus) (relpath abspath : String)
    (ttf : List (String × List String)) (acc : List (String × String)) :
    List String → Except String (List (String × String))
  | [] => .ok acc
  | tagName :: rest =>
    match c.parseFiles relpath abspath ((alookup ttf tagName).getD []) with
    | .error err => .error (wrapParseErr err abspath ((alookup ttf tagName).getD []))
    | .ok astMap =>
      mapTagsLoop c relpath abspath ttf
        (astMap.foldl (fun m kv => walkFile m tagName kv.2) acc) rest

/-- `Corpus.mapIdentifierToBuildTag` (parser.go).  `files` stands for the input
Go map with its `range` order; `allowedBuildTags` is `ctxt.BuildTags`;
`tagSeq` is the `range tagToFiles` order (see `mapTagsLoop`). -/
def Corpus.mapIdentifierToBuildTag (c : Corpus) (files : List (String × AstFile))
    (relpath abspath : String) (allowedBuildTags : List String) (tagSeq : List String) :
    Except String (List (String × String)) :=
  let tagToFiles := buildTagToFiles files allowedBuildTags
  if tagToFiles = [] then .ok []
  else mapTagsLoop c relpath abspath tagToFiles [] tagSeq

/-! ## Characterization of the declaration walk.

The walk only ever updates `typesWithTags` through `appendName`; the keys it
feeds it, in order, are a `flatMap` over the declarations.  Folding those keys
shows each final map value is built by iterating `joinStep` over the sequence
of tags appended for that key. -/

/-- The keys one `ast.Spec` contributes. -/
def specKeys : GoSpec → List String
  | .typeSpec name => [name]
  | .valueSpec names => names
  | .otherSpec => []

/-- The keys one `ast.Decl` contributes. -/
def declKeyList : GoDecl → List String
  | .funcDecl name recv => [mkDeclKey name (getReceiverType recv)]
  | .genDecl specs => specs.flatMap specKeys
  | .otherDecl => []

def fileKeyList (f : AstFile) : List String :=
  f.decls.flatMap declKeyList

def batchKeyList (astMap : List (String × AstFile)) : List String :=
  astMap.flatMap fun kv => fileKeyList kv.2

def appendKeys (m : List (String × String)) (tagName : String) (ks : List String) :
    List (String × String) :=
  ks.foldl (fun m k => appendTagForKey m k tagName) m

/-- Iterated `joinStep`: the value a key's entry reaches after a sequence of
appended tags. -/
def extendTags (v : Option String) : List String → Option String
  | [] => v
  | t :: ts => extendTags (some (joinStep v t)) ts

theorem appendKeys_append (m : List (String × String)) (t : String) (a b : List String) :
    appendKeys m t (a ++ b) = appendKeys (appendKeys m t a) t b := by
  simp [appendKeys, List.foldl_append]

theorem mkDeclKey_empty (n : String) : mkDeclKey n "" = n := by
  simp [mkDeclKey]

theorem walkSpec_eq (m : List (String × String)) (tag : String) (sp : GoSpec) :
    walkSpec m tag sp = appendKeys m tag (specKeys sp) := by
  cases sp with
  | typeSpec name =>
    simp [walkSpec, specKeys, appendKeys, appendName, mkDeclKey_empty]
  | valueSpec names =>
    simp only [walkSpec, specKeys, appendKeys]
    induction names generalizing m with
    | nil => rfl
    | cons n rest ih =>
      simp only [List.foldl_cons]
      rw [ih]
      simp [appendName, mkDeclKey_empty]
  | otherSpec => rfl

theorem walkDecl_eq (m : List (String × String)) (tag : String) (d : GoDecl) :
    walkDecl m tag d = appendKeys m tag (declKeyList d) := by
  cases d with
  | funcDecl name recv =>
    simp [walkDecl, declKeyList, appendKeys, appendName]
  | genDecl specs =>
    simp only [walkDecl, declKeyList]
    induction specs generalizing m with
    | nil => rfl
    | cons sp rest ih =>
      simp only [List.foldl_cons, List.flatMap_cons]
      rw [ih, walkSpec_eq, appendKeys_append]
  | otherDecl => rfl

theorem walkFile_eq (m : List (String × String)) (tag : String) (f : AstFile) :
    walkFile m tag f = appendKeys m tag (fileKeyList f) := by
  simp only [walkFile, fileKeyList]
  induction f.decls generalizing m with
  | nil => rfl
  | cons d rest ih =>
    simp only [List.foldl_cons, List.flatMap_cons]
    rw [ih, walkDecl_eq, appendKeys_append]

theorem walkBatch_eq (acc : List (String × String)) (tag : String)
    (astMap : List (String × AstFile)) :
    astMap.foldl (fun m kv => walkFile m tag kv.2) acc =
      appendKeys acc tag (batchKeyList astMap) := by
  induction astMap generalizing acc with
  | nil => rfl
  | cons kv rest ih =>
    simp only [List.foldl_cons, batchKeyList, List.flatMap_cons]
    rw [ih, walkFile_eq, ← appendKeys_append]
    rfl

theorem alookup_appendTagForKey (m : List (String × String)) (k t key : String) :
    alookup (appendTagForKey m k t) key =
      if key = k then some (joinStep (alookup m k) t) else alookup m key := by
  rw [appendTagForKey, alookup_aset]

theorem alookup_appendKeys (m : List (String × String)) (t : String) (ks : List String)
    (key : String) :
    alookup (appendKeys m t ks) key =
      extendTags (alookup m key) (List.replicate (ks.count key) t) := by
  induction ks generalizing m with
  | nil => rfl
  | cons k rest ih =>
    simp only [appendKeys, List.foldl_cons] at *
    rw [ih]
    by_cases h : k = key
    · subst h
      rw [alookup_appendTagForKey]
      simp only [if_pos rfl]
      have hc : (k :: rest).count k = rest.count k + 1 := by
        simp [List.count_cons]
      rw [hc, List.replicate_succ]
      rfl
    · rw [alookup_appendTagForKey]
      have h' : ¬ key = k := fun hh => h hh.symm
      rw [if_neg h']
      have hc : (k :: rest).count key = rest.count key := by
        simp [List.count_cons, h]
      rw [hc]

theorem extendTags_append (v : Option String) (a b : List String) :
    extendTags v (a ++ b) = extendTags (extendTags v a) b := by
  induction a generalizing v with
  | nil => rfl
  | cons t ts ih =>
    simp only [List.cons_append, extendTags]
    exact ih _

/-- Number of times `key` occurs in the declaration walk of tag `t`'s batch
(zero when the tag has no file group or its batch fails to load). -/
def tagKeyCount (c : Corpus) (relpath abspath : String)
    (ttf : List (String × List String)) (t key : String) : Nat :=
  match c.parseFiles relpath abspath ((alookup ttf t).getD []) with
  | .error _ => 0
  | .ok astMap => (batchKeyList astMap).count key

/-- The full sequence of tags appended for `key` over a tag iteration order. -/
def appendedTags (c : Corpus) (relpath abspath : String)
    (ttf : List (String × List String)) (tagSeq : List String) (key : String) :
    List String :=
  tagSeq.flatMap fun t => List.replicate (tagKeyCount c relpath abspath ttf t key) t

theorem mapTagsLoop_lookup (c : Corpus) (relpath abspath : String)
    (ttf : List (String × List String)) (tagSeq : List String)
    (acc m : List (String × String))
    (h : mapTagsLoop c relpath abspath ttf acc tagSeq = .ok m) (key : String) :
    alookup m key =
      extendTags (alookup acc key) (appendedTags c relpath abspath ttf tagSeq key) := by
  induction tagSeq generalizing acc with
  | nil =>
    simp only [mapTagsLoop] at h
    cases h
    rfl
  | cons t rest ih =>
    rw [mapTagsLoop] at h
    cases hp : c.parseFiles relpath abspath ((alookup ttf t).getD []) with
    | error e =>
      rw [hp] at h
      exact Except.noConfusion h
    | ok astMap =>
      rw [hp] at h
      have := ih _ h
      have hcnt : tagKeyCount c relpath abspath ttf t key = (batchKeyList astMap).count key := by
        rw [tagKeyCount, hp]
      have hexp : appendedTags c relpath abspath ttf (t :: rest) key =
          List.replicate (tagKeyCount c relpath abspath ttf t key) t ++
            appendedTags c relpath abspath ttf rest key := by
        rw [appendedTags, List.flatMap_cons]
        rfl
      rw [this, walkBatch_eq, alookup_appendKeys, hexp, extendTags_append, hcnt]

theorem mapIdent_lookup (c : Corpus) (files : List (String × AstFile))
    (relpath abspath : String) (allowed : List String) (tagSeq : List String)
    (m : List (String × String))
    (h : c.mapIdentifierToBuildTag files relpath abspath allowed tagSeq = .ok m)
    (key : String) :
    alookup m key = extendTags none
      (appendedTags c relpath abspath (buildTagToFiles files allowed) tagSeq key) := by
  rw [Corpus.mapIdentifierToBuildTag] at h
  by_cases hempty : buildTagToFiles files allowed = []
  · rw [if_pos hempty] at h
    cases h
    rw [hempty]
    have hall : appendedTags c relpath abspath [] tagSeq key = [] := by
      rw [appendedTags]
      apply List.flatMap_eq_nil_iff.mpr
      intro t ht
      have : tagKeyCount c relpath abspath [] t key = 0 := rfl
      rw [this]
      rfl
    rw [hall]
    rfl
  · rw [if_neg hempty] at h
    exact mapTagsLoop_lookup c relpath abspath _ tagSeq [] m h key

/-! ## From `extendTags` to the rendered comma-joined string. -/

/-- The comma-and-space chain `appendName` builds, started from first tag `s`. -/
def joinFrom (s : String) (ts : List String) : String :=
  ts.foldl (fun acc t => acc ++ ", " ++ t) s

/-- The rendered value of a non-empty appended-tag sequence (`""` for none). -/
def joinTags : List String → String
  | [] => ""
  | t :: ts => joinFrom t ts

theorem string_ne_empty_iff (a : String) : a ≠ "" ↔ a.data ≠ [] := by
  constructor
  · intro h hc
    apply h
    cases a
    simp only at hc
    rw [hc]
  · intro h hc
    apply h
    rw [hc]

theorem append_ne_empty (a b : String) (h : a ≠ "") : a ++ b ≠ "" := by
  rw [string_ne_empty_iff] at h ⊢
  rw [string_data_append]
  simp [h]

theorem extendTags_some (s : String) (hs : s ≠ "") (ts : List String) :
    extendTags (some s) ts = some (joinFrom s ts) := by
  induction ts generalizing s with
  | nil => rfl
  | cons t rest ih =>
    rw [extendTags]
    have hstep : joinStep (some s) t = s ++ ", " ++ t := by
      simp [joinStep, hs]
    rw [hstep, ih _ (append_ne_empty _ _ (append_ne_empty _ _ hs))]
    rfl

theorem extendTags_none_eq (ts : List String) (hne : ts ≠ [])
    (hhead : ∀ t ∈ ts, t ≠ "") : extendTags none ts = some (joinTags ts) := by
  cases ts with
  | nil => exact absurd rfl hne
  | cons t rest =>
    rw [extendTags]
    have hstep : joinStep none t = t := by
      simp [joinStep]
    rw [hstep]
    exact extendTags_some t (hhead t (List.mem_cons_self t rest)) rest

/-! ## Which tags can be appended: members of `tagToFiles`' key set. -/

theorem mem_appendedTags (c : Corpus) (relpath abspath : String)
    (ttf : List (String × List String)) (tagSeq : List String) (key t : String)
    (h : t ∈ appendedTags c relpath abspath ttf tagSeq key) :
    t ∈ tagSeq ∧ alookup ttf t ≠ none := by
  rw [appendedTags, List.mem_flatMap] at h
  obtain ⟨u, hu, hrep⟩ := h
  have heq := List.eq_of_mem_replicate hrep
  subst heq
  refine ⟨hu, ?_⟩
  intro hnone
  have hz : tagKeyCount c relpath abspath ttf t key = 0 := by
    unfold tagKeyCount
    rw [hnone]
    rfl
  rw [hz] at hrep
  simp at hrep

theorem addFileToTag_fold_key (bts : List String) (base : String)
    (ttf : List (String × List String)) (t : String)
    (h : alookup (bts.foldl (addFileToTag base) ttf) t ≠ none) :
    alookup ttf t ≠ none ∨ t ∈ bts := by
  induction bts generalizing ttf with
  | nil => exact Or.inl h
  | cons bt rest ih =>
    simp only [List.foldl_cons] at h
    rcases ih _ h with h1 | h1
    · rw [addFileToTag, alookup_aset] at h1
      by_cases he : t = bt
      · exact Or.inr (he ▸ List.mem_cons_self bt rest)
      · rw [if_neg he] at h1
        exact Or.inl h1
    · exact Or.inr (List.mem_cons_of_mem bt h1)

theorem classify_fold_key (files : List (String × AstFile)) (allowed : List String)
    (ttf0 : List (String × List String)) (t : String)
    (h : alookup (files.foldl (classifyFile allowed) ttf0) t ≠ none) :
    alookup ttf0 t ≠ none ∨ (t ∈ allowed ∧ t ≠ "") := by
  induction files generalizing ttf0 with
  | nil => exact Or.inl h
  | cons p rest ih =>
    simp only [List.foldl_cons] at h
    rcases ih _ h with h1 | h1
    · rw [classifyFile] at h1
      by_cases hok : (findBuildTags p.2 allowed).2 = true
      · rw [if_pos hok] at h1
        rcases addFileToTag_fold_key _ _ _ _ h1 with h2 | h2
        · exact Or.inl h2
        · exact Or.inr (findBuildTags_ne_empty p.2 allowed t h2)
      · rw [if_neg hok] at h1
        exact Or.inl h1
    · exact Or.inr h1

theorem buildTagToFiles_key (files : List (String × AstFile)) (allowed : List String)
    (t : String) (h : alookup (buildTagToFiles files allowed) t ≠ none) :
    t ∈ allowed ∧ t ≠ "" := by
  rcases classify_fold_key files allowed [] t h with h1 | h1
  · exact absurd rfl h1
  · exact h1

/-- Every value of a successful mapping is the comma-joined rendering of the
non-empty sequence of (allowed, non-empty) tags appended for its key. -/
theorem mapIdent_lookup_join (c : Corpus) (files : List (String × AstFile))
    (relpath abspath : String) (allowed : List String) (tagSeq : List String)
    (m : List (String × String))
    (h : c.mapIdentifierToBuildTag files relpath abspath allowed tagSeq = .ok m)
    (key : String) :
    alookup m key =
      if appendedTags c relpath abspath (buildTagToFiles files allowed) tagSeq key = []
      then none
      else some (joinTags
        (appendedTags c relpath abspath (buildTagToFiles files allowed) tagSeq key)) := by
  rw [mapIdent_lookup c files relpath abspath allowed tagSeq m h key]
  by_cases he : appendedTags c relpath abspath (buildTagToFiles files allowed) tagSeq key = []
  · rw [if_pos he, he]
    rfl
  · rw [if_neg he]
    apply extendTags_none_eq _ he
    intro t ht
    exact (buildTagToFiles_key files allowed t (mem_appendedTags _ _ _ _ _ _ _ ht).2).2

/-! ## Batch loading: success shape, fail-fast, and the error wrap. -/

theorem parseFilesLoop_ok (c : Corpus) (relpath abspath : String) (names : List String)
    (acc m : List (String × AstFile))
    (h : parseFilesLoop c relpath abspath acc names = .ok m) :
    (∀ k v, alookup acc k = some v →
      (∀ f ∈ names, pathJoin relpath f = k → c.parseFile (pathJoin abspath f) = .ok v) →
      alookup m k = some v) ∧
    (∀ f ∈ names, ∃ t, c.parseFile (pathJoin abspath f) = .ok t ∧
      alookup m (pathJoin relpath f) = some t) := by
  induction names generalizing acc with
  | nil =>
    rw [parseFilesLoop] at h
    cases h
    refine ⟨fun k v hv _ => hv, ?_⟩
    intro f hf
    simp at hf
  | cons g rest ih =>
    rw [parseFilesLoop] at h
    cases hg : c.parseFile (pathJoin abspath g) with
    | error e =>
      rw [hg] at h
      exact Except.noConfusion h
    | ok t =>
      rw [hg] at h
      obtain ⟨ihp, ihm⟩ := ih _ h
      constructor
      · intro k v hv hall
        apply ihp
        · rw [alookup_aset]
          by_cases he : k = pathJoin relpath g
          · rw [if_pos he]
            have := hall g (List.mem_cons_self g rest) he.symm
            rw [hg] at this
            cases this
            rfl
          · rwa [if_neg he]
        · intro f hf hk
          exact hall f (List.mem_cons_of_mem g hf) hk
      · intro f hf
        rcases List.mem_cons.mp hf with rfl | hf2
        · refine ⟨t, hg, ?_⟩
          apply ihp
          · rw [alookup_aset, if_pos rfl]
          · intro f2 hf2 hk
            have := pathJoin_right_inj relpath f2 f hk
            subst this
            exact hg
        · exact ihm f hf2

/-- C6 part: a successful batch maps each joined rel-key to the tree parsed
from the same name joined onto `abspath`. -/
theorem parseFiles_ok_keys (c : Corpus) (relpath abspath : String) (names : List String)
    (m : List (String × AstFile)) (h : c.parseFiles relpath abspath names = .ok m) :
    ∀ f ∈ names, ∃ t, c.parseFile (pathJoin abspath f) = .ok t ∧
      alookup m (pathJoin relpath f) = some t :=
  (parseFilesLoop_ok c relpath abspath names [] m h).2

theorem parseFilesLoop_error_arr (c : Corpus) (relpath abspath : String)
    (l₁ : List String) (f : String) (l₂ : List String) (e : String)
    (acc : List (String × AstFile))
    (hok : ∀ g ∈ l₁, ∃ t, c.parseFile (pathJoin abspath g) = .ok t)
    (he : c.parseFile (pathJoin abspath f) = .error e) :
    parseFilesLoop c relpath abspath acc (l₁ ++ f :: l₂) = .error e := by
  induction l₁ generalizing acc with
  | nil =>
    rw [List.nil_append, parseFilesLoop, he]
  | cons g rest ih =>
    rw [List.cons_append, parseFilesLoop]
    obtain ⟨t, ht⟩ := hok g (List.mem_cons_self g rest)
    rw [ht]
    exact ih _ (fun g2 hg2 => hok g2 (List.mem_cons_of_mem g hg2))

theorem mapTagsLoop_error (c : Corpus) (relpath abspath : String)
    (ttf : List (String × List String)) (tagSeq : List String)
    (acc : List (String × String)) (msg : String)
    (h : mapTagsLoop c relpath abspath ttf acc tagSeq = .error msg) :
    ∃ t ∈ tagSeq, ∃ fns e, alookup ttf t = some fns ∧
      c.parseFiles relpath abspath fns = .error e ∧
      msg = wrapParseErr e abspath fns := by
  induction tagSeq generalizing acc with
  | nil =>
    rw [mapTagsLoop] at h
    exact Except.noConfusion h
  | cons t rest ih =>
    rw [mapTagsLoop] at h
    cases hl : alookup ttf t with
    | none =>
      rw [hl] at h
      have hred : c.parseFiles relpath abspath ((none : Option (List String)).getD []) =
          .ok ([] : List (String × AstFile)) := rfl
      rw [hred] at h
      obtain ⟨t2, ht2, fns, e, hfind, herr, hmsg⟩ := ih _ h
      exact ⟨t2, List.mem_cons_of_mem t ht2, fns, e, hfind, herr, hmsg⟩
    | some fns =>
      rw [hl] at h
      cases hp : c.parseFiles relpath abspath ((some fns).getD []) with
      | error e =>
        rw [hp] at h
        cases h
        exact ⟨t, List.mem_cons_self t rest, fns, e, hl, hp, rfl⟩
      | ok astMap =>
        rw [hp] at h
        obtain ⟨t2, ht2, fns2, e2, hfind, herr, hmsg⟩ := ih _ h
        exact ⟨t2, List.mem_cons_of_mem t ht2, fns2, e2, hfind, herr, hmsg⟩

/-! ## Duplicate names in a batch collapse to a single entry (for C9). -/

theorem parseFilesLoop_dup_inner (c : Corpus) (relpath abspath : String)
    (l₂ l₃ : List String) (f : String) (t : AstFile)
    (hf : c.parseFile (pathJoin abspath f) = .ok t) :
    ∀ acc, alookup acc (pathJoin relpath f) = some t →
      parseFilesLoop c relpath abspath acc (l₂ ++ f :: l₃) =
        parseFilesLoop c relpath abspath acc (l₂ ++ l₃) := by
  induction l₂ with
  | nil =>
    intro acc hacc
    rw [List.nil_append, List.nil_append, parseFilesLoop, hf]
    show parseFilesLoop c relpath abspath (aset acc (pathJoin relpath f) t) l₃ =
      parseFilesLoop c relpath abspath acc l₃
    rw [aset_self _ _ _ hacc]
  | cons g rest ih =>
    intro acc hacc
    rw [List.cons_append, List.cons_append, parseFilesLoop, parseFilesLoop]
    cases hg : c.parseFile (pathJoin abspath g) with
    | error e => rfl
    | ok tg =>
      apply ih
      rw [alookup_aset]
      by_cases he : pathJoin relpath f = pathJoin relpath g
      · have hfg : f = g := pathJoin_right_inj relpath f g he
        subst hfg
        rw [hf] at hg
        cases hg
        rw [if_pos he]
      · rw [if_neg he]
        exact hacc

theorem parseFiles_dup (c : Corpus) (relpath abspath : String)
    (l₁ l₂ l₃ : List String) (f : String) :
    c.parseFiles relpath abspath (l₁ ++ f :: l₂ ++ f :: l₃) =
      c.parseFiles relpath abspath (l₁ ++ f :: l₂ ++ l₃) := by
  rw [Corpus.parseFiles, Corpus.parseFiles]
  have hgen : ∀ acc,
      parseFilesLoop c relpath abspath acc (l₁ ++ f :: l₂ ++ f :: l₃) =
        parseFilesLoop c relpath abspath acc (l₁ ++ f :: l₂ ++ l₃) := by
    induction l₁ with
    | nil =>
      intro acc
      simp only [List.nil_append, List.cons_append]
      rw [parseFilesLoop, parseFilesLoop]
      cases hf : c.parseFile (pathJoin abspath f) with
      | error e => rfl
      | ok t =>
        apply parseFilesLoop_dup_inner c relpath abspath l₂ l₃ f t hf
        rw [alookup_aset, if_pos rfl]
    | cons g rest ih =>
      intro acc
      simp only [List.cons_append]
      rw [parseFilesLoop, parseFilesLoop]
      cases hg : c.parseFile (pathJoin abspath g) with
      | error e => rfl
      | ok tg => exact ih _
  exact hgen []

/-! ## Step-1 helpers for the short-circuit (C7). -/

theorem findBuildTags_no_directive (f : AstFile) (allowed : List String)
    (h : ∀ cg ∈ f.comments, ∀ l ∈ cg, containsSub l "+build" = false) :
    (findBuildTags f allowed).1 = [] := by
  rw [findBuildTags]
  simp only
  apply List.flatMap_eq_nil_iff.mpr
  intro cg hcg
  apply List.flatMap_eq_nil_iff.mpr
  intro l hl
  rw [h cg hcg l hl]
  simp

theorem buildTagToFiles_no_tags (files : List (String × AstFile)) (allowed : List String)
    (h : ∀ p ∈ files, (findBuildTags p.2 allowed).1 = []) :
    buildTagToFiles files allowed = [] := by
  rw [buildTagToFiles]
  have hgen : ∀ p ∈ files, ∀ ttf, classifyFile allowed ttf p = ttf := by
    intro p hp ttf
    rw [classifyFile]
    have hsnd : (findBuildTags p.2 allowed).2 = false := by
      have hiff := findBuildTags_snd p.2 allowed
      cases hb : (findBuildTags p.2 allowed).2 with
      | false => rfl
      | true => exact absurd (h p hp) (hiff.mp hb)
    rw [hsnd]
    simp
  induction files with
  | nil => rfl
  | cons p rest ih =>
    rw [List.foldl_cons, hgen p (List.mem_cons_self p rest) []]
    exact ih (fun q hq => h q (List.mem_cons_of_mem p hq))
      (fun q hq ttf => hgen q (List.mem_cons_of_mem p hq) ttf)

/-! ## Base-name invariance (C9). -/

theorem classifyFile_base (allowed : List String) (ttf : List (String × List String))
    (p : String × AstFile) :
    classifyFile allowed ttf (filepathBase p.1, p.2) = classifyFile allowed ttf p := by
  rw [classifyFile, classifyFile]
  simp only [filepathBase_idem]

theorem buildTagToFiles_base (files : List (String × AstFile)) (allowed : List String) :
    buildTagToFiles (files.map fun p => (filepathBase p.1, p.2)) allowed =
      buildTagToFiles files allowed := by
  rw [buildTagToFiles, buildTagToFiles, List.foldl_map]
  have hgen : ∀ ttf, files.foldl (fun ttf p => classifyFile allowed ttf (filepathBase p.1, p.2)) ttf
      = files.foldl (classifyFile allowed) ttf := by
    induction files with
    | nil => intro ttf; rfl
    | cons p rest ih =>
      intro ttf
      rw [List.foldl_cons, List.foldl_cons, classifyFile_base, ih]
  exact hgen []

theorem prefixed_key_ne (s n : String) (hs : s ≠ "") : s ++ "." ++ n ≠ n := by
  intro hc
  have h1 : ((s ++ ".") ++ n).data.length = n.data.length := by rw [hc]
  rw [string_data_append, string_data_append, List.length_append, List.length_append] at h1
  have h2 : ("." : String).data.length = 1 := rfl
  rw [h2] at h1
  rw [string_ne_empty_iff] at hs
  have h3 : s.data.length ≠ 0 := fun hz => hs (List.length_eq_zero.mp hz)
  omega

/-! ## Concrete fixtures for counterexamples and witnesses.

The `goparse` capability of every fixture corpus ignores the sanitized bytes
(a legitimate external parser for the purposes of these runs, whose outcome is
fixed per path), and `fs` supplies empty or missing content. -/

/-- A file whose only directive line mentions `t1`. -/
def astT1 : AstFile := ⟨[["// +build t1"]], [GoDecl.funcDecl "F" none]⟩

/-- Two input files sharing tag `t1`; both re-parse to a tree declaring `F`. -/
def dupFiles : List (String × AstFile) := [("f1.go", astT1), ("f2.go", astT1)]

def dupCorpus : Corpus := ⟨fun _ => .ok [], fun _ _ => .ok astT1⟩

/-- A file with one directive OR-group mentioning `xtag2` and `xtag3`. -/
def astX23 : AstFile := ⟨[["// +build xtag2 xtag3"]], []⟩

def ordFiles : List (String × AstFile) := [("f.go", astX23)]

def ordCorpus : Corpus :=
  ⟨fun _ => .ok [], fun _ _ => .ok ⟨[], [GoDecl.funcDecl "F" none]⟩⟩

/-- A file mentioning `xtag1` on two separate directive lines. -/
def astTwice : AstFile := ⟨[["// +build xtag1"], ["// +build xtag1"]], []⟩

/-- Corpus whose filesystem fails exactly on `/src/bad.go`. -/
def errCorpus : Corpus :=
  ⟨fun name => if name = "/src/bad.go" then .error "boom" else .ok [],
   fun _ _ => .ok astT1⟩

def errFiles : List (String × AstFile) := [("good.go", astT1), ("bad.go", astT1)]

/-- Files with no conditional-compilation directives at all. -/
def plainFiles : List (String × AstFile) :=
  [("a.go", ⟨[["// Package a."]], [GoDecl.funcDecl "G" none]⟩)]

/-! ## The repository's own test (`TestCorpus_ExtractBuildTags`), replayed.

Three files: an untagged one, one tagged `xtag1` declaring `First`,
`unexported`, type `A` and method `String` on `A`, and one tagged with the
OR-group `xtag2 xtag3` declaring `NewCheersWithBeer` and `TestConst`. -/

def astBar : AstFile := ⟨[["// Package bar is an example."]],
  [GoDecl.genDecl [GoSpec.valueSpec ["WunderBar"]], GoDecl.genDecl [GoSpec.typeSpec "TrinkBar"]]⟩

def astXt1 : AstFile := ⟨[["// +build xtag1"]],
  [GoDecl.funcDecl "First" none, GoDecl.funcDecl "unexported" none,
   GoDecl.genDecl [GoSpec.typeSpec "A"],
   GoDecl.funcDecl "String" (some ⟨[⟨⟨some "A"⟩⟩]⟩)]⟩

def astXt2 : AstFile := ⟨[["// +build xtag2 xtag3"]],
  [GoDecl.funcDecl "NewCheersWithBeer" none, GoDecl.genDecl [GoSpec.valueSpec ["TestConst"]]]⟩

def testCorpus : Corpus :=
  ⟨fun _ => .ok [],
   fun name _ =>
     if name = "/src/xtag1.go" then .ok astXt1
     else if name = "/src/xtag2.go" then .ok astXt2
     else if name = "/src/bar.go" then .ok astBar
     else .error "file not found"⟩

def testFiles : List (String × AstFile) :=
  [("bar.go", astBar), ("xtag1.go", astXt1), ("xtag2.go", astXt2)]

example : findBuildTags astXt2 ["xtag1", "xtag2", "xtag3"] = (["xtag2", "xtag3"], true) := by
  decide

example : buildTagToFiles testFiles ["xtag1", "xtag2", "xtag3"] =
    [("xtag1", ["xtag1.go"]), ("xtag2", ["xtag2.go"]), ("xtag3", ["xtag2.go"])] := by
  decide

example : testCorpus.mapIdentifierToBuildTag testFiles "" "/src" ["xtag1", "xtag2", "xtag3"]
      ["xtag1", "xtag2", "xtag3"] =
    .ok [("First", "xtag1"), ("unexported", "xtag1"), ("A", "xtag1"),
      ("A.String", "xtag1"), ("NewCheersWithBeer", "xtag2, xtag3"),
      ("TestConst", "xtag2, xtag3")] := by
  decide

/-! ## The claims. -/

/-- C1, counterexample: the claim says a tag appears at most once in a key's
rendered tag string even when the key is found in multiple files of the same
tag's group.  With `F` declared in `f1.go` and `f2.go`, both grouped under
`t1`, the mapper renders `"t1, t1"`: the tag is duplicated, because
`appendName` concatenates without a membership test. -/
theorem C1_counterexample :
    dupCorpus.mapIdentifierToBuildTag dupFiles "" "/src" ["t1"] ["t1"] =
      .ok [("F", "t1, t1")] := by
  decide

/-- C1, amended: `appendName` is plain concatenation, not set-union.  Each
value of a successful mapping is the comma-joined rendering of the sequence of
tags appended for its key — one occurrence of the tag per occurrence of the
key in that tag's re-loaded file group, in tag-iteration order, with no
deduplication (absent exactly when no occurrence was appended). -/
theorem C1_amended (c : Corpus) (files : List (String × AstFile))
    (relpath abspath : String) (allowed : List String) (tagSeq : List String)
    (m : List (String × String))
    (h : c.mapIdentifierToBuildTag files relpath abspath allowed tagSeq = .ok m)
    (key : String) :
    alookup m key =
      if appendedTags c relpath abspath (buildTagToFiles files allowed) tagSeq key = []
      then none
      else some (joinTags
        (appendedTags c relpath abspath (buildTagToFiles files allowed) tagSeq key)) :=
  mapIdent_lookup_join c files relpath abspath allowed tagSeq m h key

theorem C1_witness :
    dupCorpus.mapIdentifierToBuildTag dupFiles "" "/src" ["t1"] ["t1"] =
      .ok [("F", "t1, t1")] ∧
    alookup [("F", "t1, t1")] "F" =
      (if appendedTags dupCorpus "" "/src" (buildTagToFiles dupFiles ["t1"]) ["t1"] "F" = []
       then none
       else some (joinTags
         (appendedTags dupCorpus "" "/src" (buildTagToFiles dupFiles ["t1"]) ["t1"] "F"))) :=
  ⟨by decide,
   C1_amended dupCorpus dupFiles "" "/src" ["t1"] ["t1"] [("F", "t1, t1")] (by decide) "F"⟩

/-- C2, counterexample: the claim says two calls on the same fixed input
produce byte-identical output because tags are iterated in a fixed order.  The
tag order is Go's map iteration order, which is unspecified: both
`[xtag2, xtag3]` and `[xtag3, xtag2]` are permutations of `tagToFiles`' key
set, i.e. orders an execution may take, and they render different strings for
the two-tag key `F`. -/
theorem C2_counterexample :
    ((buildTagToFiles ordFiles ["xtag2", "xtag3"]).map Prod.fst = ["xtag2", "xtag3"]) ∧
    List.Perm ["xtag3", "xtag2"] ((buildTagToFiles ordFiles ["xtag2", "xtag3"]).map Prod.fst) ∧
    ordCorpus.mapIdentifierToBuildTag ordFiles "" "/src" ["xtag2", "xtag3"]
        ["xtag2", "xtag3"] = .ok [("F", "xtag2, xtag3")] ∧
    ordCorpus.mapIdentifierToBuildTag ordFiles "" "/src" ["xtag2", "xtag3"]
        ["xtag3", "xtag2"] = .ok [("F", "xtag3, xtag2")] ∧
    ordCorpus.mapIdentifierToBuildTag ordFiles "" "/src" ["xtag2", "xtag3"]
        ["xtag2", "xtag3"] ≠
      ordCorpus.mapIdentifierToBuildTag ordFiles "" "/src" ["xtag2", "xtag3"]
        ["xtag3", "xtag2"] := by
  refine ⟨by decide, by decide, by decide, by decide, by decide⟩

/-- C2, amended: with fixed external results the mapping is deterministic only
up to the tag iteration order.  Two runs whose tag orders are permutations of
each other agree on which keys are present, and each key's two rendered values
are comma-joins of permuted tag sequences (same tags, same multiplicities,
possibly different order) — byte-identical output is not guaranteed. -/
theorem C2_amended (c : Corpus) (files : List (String × AstFile))
    (relpath abspath : String) (allowed : List String)
    (tagSeq1 tagSeq2 : List String) (m1 m2 : List (String × String))
    (hperm : List.Perm tagSeq1 tagSeq2)
    (h1 : c.mapIdentifierToBuildTag files relpath abspath allowed tagSeq1 = .ok m1)
    (h2 : c.mapIdentifierToBuildTag files relpath abspath allowed tagSeq2 = .ok m2)
    (key : String) :
    (alookup m1 key = none ↔ alookup m2 key = none) ∧
    ∃ ts1 ts2, List.Perm ts1 ts2 ∧
      alookup m1 key = (if ts1 = [] then none else some (joinTags ts1)) ∧
      alookup m2 key = (if ts2 = [] then none else some (joinTags ts2)) := by
  have hl1 := mapIdent_lookup_join c files relpath abspath allowed tagSeq1 m1 h1 key
  have hl2 := mapIdent_lookup_join c files relpath abspath allowed tagSeq2 m2 h2 key
  have hts : List.Perm
      (appendedTags c relpath abspath (buildTagToFiles files allowed) tagSeq1 key)
      (appendedTags c relpath abspath (buildTagToFiles files allowed) tagSeq2 key) :=
    hperm.flatMap_right _
  refine ⟨?_, _, _, hts, hl1, hl2⟩
  have hnil : appendedTags c relpath abspath (buildTagToFiles files allowed) tagSeq1 key = [] ↔
      appendedTags c relpath abspath (buildTagToFiles files allowed) tagSeq2 key = [] := by
    constructor
    · intro hz
      have := hts.length_eq
      rw [hz] at this
      exact List.length_eq_zero.mp this.symm
    · intro hz
      have := hts.length_eq
      rw [hz] at this
      exact List.length_eq_zero.mp this
  rw [hl1, hl2]
  by_cases hz : appendedTags c relpath abspath (buildTagToFiles files allowed) tagSeq1 key = []
  · rw [if_pos hz, if_pos (hnil.mp hz)]
  · rw [if_neg hz, if_neg (fun hc => hz (hnil.mpr hc))]
    simp

theorem C2_witness :
    List.Perm ["xtag2", "xtag3"] ["xtag3", "xtag2"] ∧
    ordCorpus.mapIdentifierToBuildTag ordFiles "" "/src" ["xtag2", "xtag3"]
        ["xtag2", "xtag3"] = .ok [("F", "xtag2, xtag3")] ∧
    ordCorpus.mapIdentifierToBuildTag ordFiles "" "/src" ["xtag2", "xtag3"]
        ["xtag3", "xtag2"] = .ok [("F", "xtag3, xtag2")] ∧
    ((alookup [("F", "xtag2, xtag3")] "F" = none ↔
        alookup [("F", "xtag3, xtag2")] "F" = none) ∧
      ∃ ts1 ts2, List.Perm ts1 ts2 ∧
        alookup [("F", "xtag2, xtag3")] "F" =
          (if ts1 = [] then none else some (joinTags ts1)) ∧
        alookup [("F", "xtag3, xtag2")] "F" =
          (if ts2 = [] then none else some (joinTags ts2))) :=
  ⟨by decide, by decide, by decide,
   C2_amended ordCorpus ordFiles "" "/src" ["xtag2", "xtag3"] ["xtag2", "xtag3"]
     ["xtag3", "xtag2"] [("F", "xtag2, xtag3")] [("F", "xtag3, xtag2")]
     (by decide) (by decide) (by decide) "F"⟩

/-- C3, counterexample: the claim says the extractor's returned list is
deduplicated.  A file mentioning `xtag1` on two directive lines yields the tag
twice: `findBuildTags` appends with no membership test. -/
theorem C3_counterexample :
    findBuildTags astTwice ["xtag1"] = (["xtag1", "xtag1"], true) ∧
    ((findBuildTags astTwice ["xtag1"]).1.count "xtag1" = 2) := by
  refine ⟨by decide, by decide⟩

/-- C3, amended: the extractor accumulates kept tokens across all directive
lines WITHOUT deduplication; the boolean result is true exactly when the list
is non-empty, and a token occurs in the list iff it is an allowed tag mentioned
on some directive line (with multiplicity, not at most once). -/
theorem C3_amended (f : AstFile) (allowed : List String) :
    ((findBuildTags f allowed).2 = true ↔ (findBuildTags f allowed).1 ≠ []) ∧
    (∀ t, t ∈ (findBuildTags f allowed).1 ↔
      (t ∈ allowed ∧ ∃ c ∈ f.comments, ∃ l ∈ c,
        containsSub l "+build" = true ∧ t ∈ tagsFlagSet l)) :=
  ⟨findBuildTags_snd f allowed, fun t => findBuildTags_mem f allowed t⟩

/-- C4, counterexample: the claim says a function with a receiver always
yields the qualified key `"<ReceiverType>.<Name>"`, distinct from a bare
function of the same name.  When rendering the receiver type fails,
`getReceiverType` returns `""`, the qualifier is omitted, and the method's key
collides with the bare function's key. -/
theorem C4_counterexample :
    walkDecl [] "t" (GoDecl.funcDecl "F" (some ⟨[⟨⟨none⟩⟩]⟩)) = [("F", "t")] ∧
    walkDecl [] "t" (GoDecl.funcDecl "F" none) = [("F", "t")] ∧
    walkDecl [] "t" (GoDecl.funcDecl "F" (some ⟨[⟨⟨none⟩⟩]⟩)) =
      walkDecl [] "t" (GoDecl.funcDecl "F" none) := by
  refine ⟨by decide, by decide, by decide⟩

/-- C4, amended: during the walk every declaration contributes exactly the
keys of `declKeyList`: a function with a receiver whose type renders to
non-empty text is keyed `"<ReceiverType>.<Name>"` (distinct from the bare
name); a function without receiver — or whose receiver type fails to render —
is keyed by the bare name; a type declaration by its bare name; a value
declaration by one key per listed name; other declaration and spec kinds
contribute nothing. -/
theorem C4_amended :
    (∀ m tag d, walkDecl m tag d = appendKeys m tag (declKeyList d)) ∧
    (∀ n : String, declKeyList (GoDecl.funcDecl n none) = [n]) ∧
    (∀ (n : String) (fl : FieldList) (fld : RecvField) (rest : List RecvField)
       (s : String), fl.list = fld :: rest → fld.type.render = some s → s ≠ "" →
       declKeyList (GoDecl.funcDecl n (some fl)) = [s ++ "." ++ n] ∧ s ++ "." ++ n ≠ n) ∧
    (∀ (n : String) (fl : FieldList) (fld : RecvField) (rest : List RecvField),
       fl.list = fld :: rest → fld.type.render = none →
       declKeyList (GoDecl.funcDecl n (some fl)) = [n]) ∧
    (∀ specs, declKeyList (GoDecl.genDecl specs) = specs.flatMap specKeys) ∧
    (∀ name, specKeys (GoSpec.typeSpec name) = [name]) ∧
    (∀ names, specKeys (GoSpec.valueSpec names) = names) ∧
    specKeys GoSpec.otherSpec = [] ∧
    declKeyList GoDecl.otherDecl = [] := by
  refine ⟨walkDecl_eq, fun n => ?_, fun n fl fld rest s hfl hr hs => ⟨?_, ?_⟩,
    fun n fl fld rest hfl hr => ?_, fun specs => rfl, fun name => rfl,
    fun names => rfl, rfl, rfl⟩
  · rw [declKeyList]
    rw [show getReceiverType none = "" from rfl, mkDeclKey_empty]
  · rw [declKeyList]
    have hg : getReceiverType (some fl) = s := by
      simp [getReceiverType, getReceiverTypeCore, hfl, hr]
    rw [hg, mkDeclKey, if_pos (by simpa using hs)]
  · exact prefixed_key_ne s n hs
  · rw [declKeyList]
    have hg : getReceiverType (some fl) = "" := by
      simp [getReceiverType, getReceiverTypeCore, hfl, hr]
    rw [hg, mkDeclKey_empty]

theorem C4_witness :
    (walkDecl [] "t" (GoDecl.funcDecl "F" (some ⟨[⟨⟨some "A"⟩⟩]⟩)) =
      appendKeys [] "t" (declKeyList (GoDecl.funcDecl "F" (some ⟨[⟨⟨some "A"⟩⟩]⟩)))) ∧
    declKeyList (GoDecl.funcDecl "F" (some ⟨[⟨⟨some "A"⟩⟩]⟩)) = ["A" ++ "." ++ "F"] ∧
    ("A" ++ "." ++ "F" ≠ "F") ∧
    declKeyList (GoDecl.funcDecl "F" (some ⟨[⟨⟨none⟩⟩]⟩)) = ["F"] := by
  obtain ⟨h1, _, h3, h4, _⟩ := C4_amended
  exact ⟨h1 [] "t" _,
    (h3 "F" ⟨[⟨⟨some "A"⟩⟩]⟩ ⟨⟨some "A"⟩⟩ [] "A" rfl rfl (by decide)).1,
    (h3 "F" ⟨[⟨⟨some "A"⟩⟩]⟩ ⟨⟨some "A"⟩⟩ [] "A" rfl rfl (by decide)).2,
    h4 "F" ⟨[⟨⟨none⟩⟩]⟩ ⟨⟨none⟩⟩ [] rfl rfl⟩

/-- C5: the claim (and the function's own comment) says marker occurrences not
at a line start are skipped without modification.  On the buffer
`"x//line //line \n"` the second marker occurrence sits mid-line right after
the first (skipped) one; the loop re-slices the buffer after the skip, so the
second occurrence is at index 0 of the new slice and is misclassified as a
line start and blanked.  The line-by-line statement of the spec
(`blankMarkedLinesSpec`) leaves the buffer unchanged; the code does not. -/
theorem C5_bug_eval :
    replaceLinePrefixCommentsWithBlankLine "x//line //line \n".toList =
      "x//line        \n".toList ∧
    blankMarkedLinesSpec "x//line //line \n".toList = "x//line //line \n".toList ∧
    replaceLinePrefixCommentsWithBlankLine "x//line //line \n".toList ≠
      blankMarkedLinesSpec "x//line //line \n".toList := by
  have h1 : replaceLinePrefixCommentsWithBlankLine "x//line //line \n".toList =
      "x//line        \n".toList := by
    rw [replaceLinePrefixCommentsWithBlankLine,
      sanitizeLoop_skip _ 1 (by decide) (by decide),
      sanitizeLoop_blank _ 0 (by decide) (by decide),
      sanitizeLoop_none _ (by decide)]
    decide
  refine ⟨h1, by decide, ?_⟩
  rw [h1]
  decide

/-- C6: batch loading is fail-fast and atomic.  A successful `parseFiles` maps
each name joined onto `relpath` to the tree parsed from the same name joined
onto `abspath`; when every name before `f` loads and `f` fails, `parseFiles`
returns exactly `f`'s error — and being an `.error`, it carries no partial
map; and a failure inside the mapper's per-tag re-scan makes
`mapIdentifierToBuildTag` return an error wrapping the originating path and
the file list being processed, with no partial mapping. -/
theorem C6_fail_fast (c : Corpus) (relpath abspath : String) :
    (∀ names m, c.parseFiles relpath abspath names = .ok m →
      ∀ f ∈ names, ∃ t, c.parseFile (pathJoin abspath f) = .ok t ∧
        alookup m (pathJoin relpath f) = some t) ∧
    (∀ l₁ f l₂ e, (∀ g ∈ l₁, ∃ t, c.parseFile (pathJoin abspath g) = .ok t) →
      c.parseFile (pathJoin abspath f) = .error e →
      c.parseFiles relpath abspath (l₁ ++ f :: l₂) = .error e) ∧
    (∀ files allowed tagSeq msg,
      c.mapIdentifierToBuildTag files relpath abspath allowed tagSeq = .error msg →
      ∃ t ∈ tagSeq, ∃ fns e, alookup (buildTagToFiles files allowed) t = some fns ∧
        c.parseFiles relpath abspath fns = .error e ∧ msg = wrapParseErr e abspath fns) := by
  refine ⟨?_, ?_, ?_⟩
  · intro names m h
    exact parseFiles_ok_keys c relpath abspath names m h
  · intro l₁ f l₂ e hok he
    exact parseFilesLoop_error_arr c relpath abspath l₁ f l₂ e [] hok he
  · intro files allowed tagSeq msg h
    rw [Corpus.mapIdentifierToBuildTag] at h
    by_cases hempty : buildTagToFiles files allowed = []
    · rw [if_pos hempty] at h
      exact Except.noConfusion h
    · rw [if_neg hempty] at h
      exact mapTagsLoop_error c relpath abspath _ tagSeq [] msg h

theorem C6_witness :
    (∃ t, errCorpus.parseFile (pathJoin "/src" "good.go") = .ok t ∧
      alookup [("good.go", astT1)] (pathJoin "" "good.go") = some t) ∧
    errCorpus.parseFiles "" "/src" ["bad.go"] = .error "boom" ∧
    (∃ t ∈ ["t1"], ∃ fns e, alookup (buildTagToFiles errFiles ["t1"]) t = some fns ∧
      errCorpus.parseFiles "" "/src" fns = .error e ∧
      "boom in \"/src\" with files: [good.go bad.go]" = wrapParseErr e "/src" fns) := by
  obtain ⟨p1, p2, p3⟩ := C6_fail_fast errCorpus "" "/src"
  refine ⟨?_, ?_, ?_⟩
  · exact p1 ["good.go"] [("good.go", astT1)] (by decide) "good.go" (by decide)
  · exact p2 [] "bad.go" [] "boom" (fun g hg => absurd hg (List.not_mem_nil g)) (by decide)
  · exact p3 errFiles ["t1"] ["t1"] "boom in \"/src\" with files: [good.go bad.go]"
      (by decide)

/-- C7: when no file's directives mention an allowed tag, the tag-to-files
grouping is empty and the mapper short-circuits, returning an empty map and no
error for EVERY corpus — the result does not depend on the corpus at all, so
no re-load is performed.  Files with zero conditional-compilation directive
comments are the special case in which the extractor keeps nothing. -/
theorem C7_empty_short_circuit (files : List (String × AstFile)) (allowed : List String)
    (h : ∀ p ∈ files, (findBuildTags p.2 allowed).1 = []) :
    buildTagToFiles files allowed = [] ∧
    (∀ (c : Corpus) (relpath abspath : String) (tagSeq : List String),
      c.mapIdentifierToBuildTag files relpath abspath allowed tagSeq = .ok []) ∧
    (∀ f : AstFile, (∀ cg ∈ f.comments, ∀ l ∈ cg, containsSub l "+build" = false) →
      (findBuildTags f allowed).1 = []) := by
  have hempty := buildTagToFiles_no_tags files allowed h
  refine ⟨hempty, ?_, ?_⟩
  · intro c relpath abspath tagSeq
    simp [Corpus.mapIdentifierToBuildTag, hempty]
  · intro f hf
    exact findBuildTags_no_directive f allowed hf

theorem C7_witness :
    (∀ p ∈ plainFiles, (findBuildTags p.2 ["t1"]).1 = []) ∧
    buildTagToFiles plainFiles ["t1"] = [] ∧
    dupCorpus.mapIdentifierToBuildTag plainFiles "" "/src" ["t1"] [] = .ok [] := by
  have hpre : ∀ p ∈ plainFiles, (findBuildTags p.2 ["t1"]).1 = [] := by decide
  obtain ⟨h1, h2, _⟩ := C7_empty_short_circuit plainFiles ["t1"] hpre
  exact ⟨hpre, h1, h2 dupCorpus "" "/src" []⟩

/-- C8: a raw token absent from the allowed tag set is discarded by the
extractor and never occurs as a tag in any value of the final map: every
rendered value is the comma-join of a non-empty tag sequence drawn entirely
from the allowed set, so the token is not among its tags. -/
theorem C8_disallowed_never_output (allowed : List String) (tok : String)
    (htok : tok ∉ allowed) :
    (∀ f : AstFile, tok ∉ (findBuildTags f allowed).1) ∧
    (∀ (c : Corpus) (files : List (String × AstFile)) (relpath abspath : String)
       (tagSeq : List String) (m : List (String × String)),
      c.mapIdentifierToBuildTag files relpath abspath allowed tagSeq = .ok m →
      ∀ key v, alookup m key = some v →
        ∃ ts, v = joinTags ts ∧ ts ≠ [] ∧ (∀ t ∈ ts, t ∈ allowed) ∧ tok ∉ ts) := by
  constructor
  · intro f hmem
    exact htok (findBuildTags_ne_empty f allowed tok hmem).1
  · intro c files relpath abspath tagSeq m h key v hv
    have hl := mapIdent_lookup_join c files relpath abspath allowed tagSeq m h key
    rw [hv] at hl
    by_cases hz : appendedTags c relpath abspath (buildTagToFiles files allowed) tagSeq key = []
    · rw [if_pos hz] at hl
      exact Option.noConfusion hl
    · rw [if_neg hz] at hl
      have hval : v = joinTags
          (appendedTags c relpath abspath (buildTagToFiles files allowed) tagSeq key) := by
        injection hl
      have hall : ∀ t ∈ appendedTags c relpath abspath (buildTagToFiles files allowed)
          tagSeq key, t ∈ allowed := by
        intro t ht
        exact (buildTagToFiles_key files allowed t (mem_appendedTags _ _ _ _ _ _ _ ht).2).1
      refine ⟨_, hval, hz, hall, ?_⟩
      intro hc
      exact htok (hall tok hc)

theorem C8_witness :
    ("zzz" ∉ (["t1"] : List String)) ∧
    ("zzz" ∉ (findBuildTags astT1 ["t1"]).1) ∧
    (∃ ts, "t1, t1" = joinTags ts ∧ ts ≠ [] ∧
      (∀ t ∈ ts, t ∈ (["t1"] : List String)) ∧ "zzz" ∉ ts) := by
  obtain ⟨p1, p2⟩ := C8_disallowed_never_output ["t1"] "zzz" (by decide)
  refine ⟨by decide, p1 astT1, ?_⟩
  exact p2 dupCorpus dupFiles "" "/src" ["t1"] [("F", "t1, t1")] (by decide)
    "F" "t1, t1" (by decide)

/-- C9: the mapper identifies files by base name only: replacing every input
key by its base name changes nothing (only the base is recorded in a tag's
group, and the re-load joins `abspath` with that base), and the same name
occurring twice in one batch collapses to a single re-loaded entry. -/
theorem C9_base_names (c : Corpus) (files : List (String × AstFile))
    (relpath abspath : String) (allowed : List String) (tagSeq : List String)
    (l₁ l₂ l₃ : List String) (f : String) :
    c.mapIdentifierToBuildTag (files.map fun p => (filepathBase p.1, p.2))
        relpath abspath allowed tagSeq =
      c.mapIdentifierToBuildTag files relpath abspath allowed tagSeq ∧
    c.parseFiles relpath abspath (l₁ ++ f :: l₂ ++ f :: l₃) =
      c.parseFiles relpath abspath (l₁ ++ f :: l₂ ++ l₃) := by
  constructor
  · rw [Corpus.mapIdentifierToBuildTag, Corpus.mapIdentifierToBuildTag,
      buildTagToFiles_base]
  · exact parseFiles_dup c relpath abspath l₁ l₂ l₃ f

/-- C10: `getReceiverType` is total over parser-produced declarations: under
the precondition that every non-nil receiver of a successfully parsed
declaration has at least one field, the `Recv.List[0]` access is in bounds
(the core returns `some`); the result is `""` when there is no receiver or
when rendering the receiver type fails, and the rendered text otherwise. -/
theorem C10_receiver_total (recv : Option FieldList)
    (hpre : ∀ fl, recv = some fl → fl.list ≠ []) :
    (getReceiverTypeCore recv).isSome = true ∧
    (recv = none → getReceiverType recv = "") ∧
    (∀ fl fld rest, recv = some fl → fl.list = fld :: rest →
      fld.type.render = none → getReceiverType recv = "") ∧
    (∀ fl fld rest s, recv = some fl → fl.list = fld :: rest →
      fld.type.render = some s → getReceiverType recv = s) := by
  refine ⟨?_, ?_, ?_, ?_⟩
  · cases recv with
    | none => rfl
    | some fl =>
      cases hfl : fl.list with
      | nil => exact absurd hfl (hpre fl rfl)
      | cons fld rest =>
        simp only [getReceiverTypeCore, hfl]
        cases hr : fld.type.render <;> simp
  · intro h
    subst h
    rfl
  · intro fl fld rest h hfl hr
    subst h
    simp [getReceiverType, getReceiverTypeCore, hfl, hr]
  · intro fl fld rest s h hfl hr
    subst h
    simp [getReceiverType, getReceiverTypeCore, hfl, hr]

theorem C10_witness :
    (∀ fl, (some (⟨[⟨⟨none⟩⟩]⟩ : FieldList) = some fl) → fl.list ≠ []) ∧
    (getReceiverTypeCore (some (⟨[⟨⟨none⟩⟩]⟩ : FieldList))).isSome = true ∧
    getReceiverType (some (⟨[⟨⟨none⟩⟩]⟩ : FieldList)) = "" := by
  have hpre : ∀ fl, (some (⟨[⟨⟨none⟩⟩]⟩ : FieldList) = some fl) → fl.list ≠ [] := by
    intro fl h
    cases h
    decide
  obtain ⟨h1, _, h3, _⟩ := C10_receiver_total _ hpre
  exact ⟨hpre, h1, h3 _ ⟨⟨none⟩⟩ [] rfl rfl rfl⟩

end Godoc
